import Mathlib

/-!
Shallow embedding of `src/sqlsockets.py` (the `ParentSocket` class, its
three-table schema, and the pydantic `Parent` / `Child` models), together
with theorems settling the claims about it.

Identities (UUIDs in the source) are modelled as plain strings.  The three
database tables become three lists held in a `Store`; uniqueness and
foreign-key constraints of the schema are enforced by the insert functions,
which return `none` on a constraint violation (the transaction in
`create_many` then rolls back, leaving the store unchanged).
-/

namespace SqlSockets

/-- The pydantic `Child` model: just an identity. -/
structure Child where
  id : String
deriving DecidableEq, Repr

/-- The pydantic `Parent` model: an identity and an ordered child list. -/
structure Parent where
  id : String
  children : List Child
deriving DecidableEq, Repr

/-- The database state: the `parent`, `child` and `parent_child` tables, each
as a list of rows in insertion order. -/
structure Store where
  parents : List String
  children : List String
  links : List (String × String)
deriving DecidableEq, Repr

/-- A failed transaction: some insert broke a uniqueness or foreign-key
constraint and the whole transaction was rolled back. -/
inductive DbError where
  | constraintViolation
deriving DecidableEq, Repr

/-- The rows staged by the loop of `create_many` before the transaction:
`parent_instances`, `child_instances`, `parent_child_instances` and the
`inserted_children` set of the source. -/
structure Staged where
  parentRows : List String
  childRows : List String
  linkRows : List (String × String)
  insertedChildren : List String
deriving DecidableEq, Repr

/-- One iteration of the inner loop of `create_many` (source lines 96-100):
if the child identity is not yet staged, stage a child row, mark it staged,
and stage a link row; otherwise do nothing.  (In the source the link append
sits inside the not-yet-staged branch.) -/
def stageChild (pid : String) (st : Staged) (c : Child) : Staged :=
  if c.id ∈ st.insertedChildren then st
  else
    { st with
      childRows := st.childRows ++ [c.id]
      insertedChildren := st.insertedChildren ++ [c.id]
      linkRows := st.linkRows ++ [(pid, c.id)] }

/-- The inner loop of `create_many` over the child list of one parent. -/
def stageChildren (pid : String) (st : Staged) : List Child → Staged
  | [] => st
  | c :: cs => stageChildren pid (stageChild pid st c) cs

/-- The outer loop of `create_many` (source lines 93-100): stage one parent
row per object, then run the inner loop over its children. -/
def stageParents (st : Staged) : List Parent → Staged
  | [] => st
  | p :: ps =>
    stageParents (stageChildren p.id { st with parentRows := st.parentRows ++ [p.id] } p.children) ps

/-- All rows staged by a `create_many` call on the given batch. -/
def stageAll (objs : List Parent) : Staged :=
  stageParents ⟨[], [], [], []⟩ objs

/-- Multi-row `INSERT` into a single-column primary-key table: each row in
order must not collide with the rows already present (nor with the rows of
the same statement inserted before it); on collision the statement fails. -/
def insertIds (tbl : List String) : List String → Option (List String)
  | [] => some tbl
  | r :: rs => if r ∈ tbl then none else insertIds (tbl ++ [r]) rs

/-- Multi-row `INSERT` into the `parent_child` table: the composite primary
key forbids a duplicate pair, and the two foreign keys must reference rows of
the `parent` and `child` tables. -/
def insertLinks (ps cs : List String) (tbl : List (String × String)) :
    List (String × String) → Option (List (String × String))
  | [] => some tbl
  | l :: ls =>
    if l ∈ tbl then none
    else if l.1 ∈ ps ∧ l.2 ∈ cs then insertLinks ps cs (tbl ++ [l]) ls
    else none

/-- The transaction body of `create_many` (source lines 103-117): insert the
parent rows, then — only when child rows were staged — the child rows and the
link rows.  `none` models the rolled-back transaction. -/
def runTxn (s : Store) (st : Staged) : Option Store :=
  match insertIds s.parents st.parentRows with
  | none => none
  | some ps =>
    if st.childRows.isEmpty then some ⟨ps, s.children, s.links⟩
    else
      match insertIds s.children st.childRows with
      | none => none
      | some cs =>
        match insertLinks ps cs s.links st.linkRows with
        | none => none
        | some ls => some ⟨ps, cs, ls⟩

/-- `ParentSocket.create_many`: empty batch short-circuits to 0; otherwise
stage all rows, run the transaction, and return the number of parent rows
inserted (the length of the `RETURNING` result). -/
def create_many (s : Store) (objs : List Parent) : Store × Except DbError Nat :=
  if objs.isEmpty then (s, Except.ok 0)
  else
    let st := stageAll objs
    match runTxn s st with
    | none => (s, Except.error DbError.constraintViolation)
    | some sNew => (sNew, Except.ok st.parentRows.length)

/-- The join of `ParentSocket.query` (source lines 122-137): `parent_child`
joined to `child` on the child identity, filtered by the parent-id predicate;
rows come back in link insertion order. -/
def queryRows (s : Store) (pred : String → Bool) : List (String × String) :=
  s.links.filter (fun l => pred l.1 && decide (l.2 ∈ s.children))

/-- One iteration of the grouping loop (source lines 140-142): append the
child id to the group of its parent id, creating the group on first sight. -/
def addRow (acc : List (String × List String)) (r : String × String) :
    List (String × List String) :=
  if r.1 ∈ acc.map Prod.fst then
    acc.map (fun g => if g.1 = r.1 then (g.1, g.2 ++ [r.2]) else g)
  else acc ++ [(r.1, [r.2])]

/-- The `defaultdict` grouping of `query`: groups keyed by parent id, in
first-discovery order, children in row order. -/
def groupRows (rows : List (String × String)) : List (String × List String) :=
  rows.foldl addRow []

/-- Source lines 146-147: one reconstructed `Parent` per group. -/
def toParent (g : String × List String) : Parent :=
  ⟨g.1, g.2.map Child.mk⟩

/-- The shared pipeline of `ParentSocket.query`: join, group, reconstruct. -/
def queryResults (s : Store) (pred : String → Bool) : List Parent :=
  (groupRows (queryRows s pred)).map toParent

/-- The `isinstance(id, list)` branch of `ParentSocket.query`: a list of ids
is filtered with an `IN` clause and the whole result list is returned. -/
def queryMany (s : Store) (ids : List String) : List Parent :=
  queryResults s (fun pid => decide (pid ∈ ids))

/-- The single-id branch of `ParentSocket.query`: the result list is indexed
at 0; the `IndexError` raised on an empty result is modelled as `none`. -/
def queryOne (s : Store) (id : String) : Option Parent :=
  (queryResults s (fun pid => decide (pid = id))).head?

/-- All child identities of a batch, in order, one per membership position. -/
def batchChildIds (objs : List Parent) : List String :=
  objs.flatMap (fun p => p.children.map (fun c => c.id))

/-- All (parent id, child id) membership pairs of a batch, in order. -/
def batchPairs (objs : List Parent) : List (String × String) :=
  objs.flatMap (fun p => p.children.map (fun c => (p.id, c.id)))

/-- One step of first-discovery key collection: keep the key list unchanged
when the key was already seen, append it otherwise. -/
def discoverKeys (acc : List String) (k : String) : List String :=
  if k ∈ acc then acc else acc ++ [k]

/-- The first-discovery ordering of the parent ids of a row list, the order
notion the spec uses for multi-key query results. -/
def firstDiscovery (rows : List (String × String)) : List String :=
  (rows.map Prod.fst).foldl discoverKeys []

/-- Whether a parent object lists the given child identity. -/
def containsChild (p : Parent) (cid : String) : Bool :=
  p.children.any (fun c => decide (c.id = cid))

/-- The first parent of the batch (in input order) whose child list contains
the given child identity. -/
def firstParentWith (objs : List Parent) (cid : String) : Option String :=
  (objs.find? (fun p => containsChild p cid)).map (fun p => p.id)

/-- The foreign-key invariant the schema guarantees for any store built
through it: every link row references existing parent and child rows. -/
def wfStore (s : Store) : Prop :=
  ∀ l ∈ s.links, l.1 ∈ s.parents ∧ l.2 ∈ s.children

/-- The invariant of the staging loop: the staged-children set equals the
staged child rows, every link row carries a freshly staged child, and no
child id is staged twice. -/
def StagedInv (st : Staged) : Prop :=
  st.insertedChildren = st.childRows ∧
  st.linkRows.map Prod.snd = st.childRows ∧
  st.childRows.Nodup

theorem stageChild_parentRows (pid : String) (st : Staged) (c : Child) :
    (stageChild pid st c).parentRows = st.parentRows := by
  unfold stageChild; split <;> rfl

theorem stageChildren_parentRows (pid : String) (cs : List Child) (st : Staged) :
    (stageChildren pid st cs).parentRows = st.parentRows := by
  induction cs generalizing st with
  | nil => rfl
  | cons c cs ih => simp [stageChildren, ih, stageChild_parentRows]

theorem stageParents_parentRows (ps : List Parent) (st : Staged) :
    (stageParents st ps).parentRows = st.parentRows ++ ps.map (fun p => p.id) := by
  induction ps generalizing st with
  | nil => simp [stageParents]
  | cons p ps ih => simp [stageParents, ih, stageChildren_parentRows, List.append_assoc]

theorem stageAll_parentRows (objs : List Parent) :
    (stageAll objs).parentRows = objs.map (fun p => p.id) := by
  simp [stageAll, stageParents_parentRows]

theorem stageChild_inv {st : Staged} (pid : String) (c : Child) (h : StagedInv st) :
    StagedInv (stageChild pid st c) := by
  obtain ⟨h1, h2, h3⟩ := h
  unfold stageChild
  split
  · exact ⟨h1, h2, h3⟩
  · rename_i hnot
    refine ⟨by simp [h1], by simp [h2], ?_⟩
    rw [h1] at hnot
    simp [List.nodup_append, h3, hnot]

theorem stageChildren_inv {st : Staged} (pid : String) (cs : List Child) (h : StagedInv st) :
    StagedInv (stageChildren pid st cs) := by
  induction cs generalizing st with
  | nil => exact h
  | cons c cs ih => exact ih (stageChild_inv pid c h)

theorem stageParents_inv {st : Staged} (ps : List Parent) (h : StagedInv st) :
    StagedInv (stageParents st ps) := by
  induction ps generalizing st with
  | nil => exact h
  | cons p ps ih =>
    refine ih (stageChildren_inv p.id p.children ?_)
    exact ⟨h.1, h.2.1, h.2.2⟩

theorem stageAll_inv (objs : List Parent) : StagedInv (stageAll objs) :=
  stageParents_inv objs ⟨rfl, rfl, List.nodup_nil⟩

theorem insertIds_ok (rows : List String) :
    ∀ tbl, rows.Nodup → (∀ r ∈ rows, r ∉ tbl) → insertIds tbl rows = some (tbl ++ rows) := by
  induction rows with
  | nil => intro tbl _ _; simp [insertIds]
  | cons r rs ih =>
    intro tbl hnd hfresh
    have hr : r ∉ tbl := hfresh r (by simp)
    rw [insertIds, if_neg hr, ih (tbl ++ [r]) hnd.of_cons]
    · simp
    · intro x hx
      simp only [List.mem_append, List.mem_singleton]
      rintro (hl | rfl)
      · exact hfresh x (by simp [hx]) hl
      · exact (List.nodup_cons.mp hnd).1 hx

theorem insertIds_some (rows : List String) :
    ∀ tbl t, insertIds tbl rows = some t → t = tbl ++ rows := by
  induction rows with
  | nil => intro tbl t h; simp [insertIds] at h; simp [h]
  | cons r rs ih =>
    intro tbl t h
    rw [insertIds] at h
    split at h
    · cases h
    · have := ih (tbl ++ [r]) t h
      simp [this]

theorem insertLinks_ok (ls : List (String × String)) (ps cs : List String) :
    ∀ tbl, ls.Nodup → (∀ l ∈ ls, l ∉ tbl ∧ l.1 ∈ ps ∧ l.2 ∈ cs) →
      insertLinks ps cs tbl ls = some (tbl ++ ls) := by
  induction ls with
  | nil => intro tbl _ _; simp [insertLinks]
  | cons l ls ih =>
    intro tbl hnd hok
    obtain ⟨hmem, hfk⟩ := hok l (by simp)
    rw [insertLinks, if_neg hmem, if_pos hfk, ih (tbl ++ [l]) hnd.of_cons]
    · simp
    · intro x hx
      refine ⟨?_, (hok x (by simp [hx])).2⟩
      simp only [List.mem_append, List.mem_singleton]
      rintro (hl | rfl)
      · exact (hok x (by simp [hx])).1 hl
      · exact (List.nodup_cons.mp hnd).1 hx

theorem insertLinks_some (ls : List (String × String)) (ps cs : List String) :
    ∀ tbl t, insertLinks ps cs tbl ls = some t → t = tbl ++ ls := by
  induction ls with
  | nil => intro tbl t h; simp [insertLinks] at h; simp [h]
  | cons l ls ih =>
    intro tbl t h
    rw [insertLinks] at h
    split at h
    · cases h
    · split at h
      · have := ih (tbl ++ [l]) t h
        simp [this]
      · cases h

theorem runTxn_some {s : Store} {st : Staged} {sNew : Store}
    (hinv : st.linkRows.map Prod.snd = st.childRows) (h : runTxn s st = some sNew) :
    sNew.parents = s.parents ++ st.parentRows ∧
    sNew.children = s.children ++ st.childRows ∧
    sNew.links = s.links ++ st.linkRows := by
  unfold runTxn at h
  cases hp : insertIds s.parents st.parentRows with
  | none => simp [hp] at h
  | some ps =>
    simp only [hp] at h
    have hps := insertIds_some _ _ _ hp
    by_cases hemp : st.childRows.isEmpty = true
    · have hcr : st.childRows = [] := by simpa using hemp
      have hlr : st.linkRows = [] := List.map_eq_nil_iff.mp (hcr ▸ hinv)
      rw [if_pos hemp] at h
      cases h
      refine ⟨hps, ?_, ?_⟩ <;> simp [hcr, hlr]
    · rw [if_neg hemp] at h
      cases hc : insertIds s.children st.childRows with
      | none => simp [hc] at h
      | some cs =>
        simp only [hc] at h
        cases hl : insertLinks ps cs s.links st.linkRows with
        | none => simp [hl] at h
        | some lks =>
          simp only [hl] at h
          cases h
          exact ⟨hps, insertIds_some _ _ _ hc, insertLinks_some _ _ _ _ _ hl⟩

/-- Claim C7: for the empty input sequence, `create_many` returns 0
immediately, leaving the store untouched (no staging, no transaction). -/
theorem c7_empty_write_noop (s : Store) : create_many s [] = (s, Except.ok 0) := rfl

/-- Claim C1 (evaluation at the failing input): for a batch in which the
child identity "c" is referenced by the two distinct parents "p1" and "p2",
`create_many` stages one child row but only ONE link row — the link append of
the source sits inside the new-child branch, so the second membership pair
("p2", "c") is dropped, contradicting the two link rows the claim demands. -/
theorem c1_shared_child_stages_one_link :
    stageAll [⟨"p1", [⟨"c"⟩]⟩, ⟨"p2", [⟨"c"⟩]⟩] =
      ⟨["p1", "p2"], ["c"], [("p1", "c")], ["c"]⟩ := by
  rfl

/-- Claim C2 counterexample: on an empty store (so no identity collides with
existing storage) the batch [⟨p1, [c]⟩, ⟨p2, [c]⟩] is written with count 2,
yet the immediately following fetch of "p2" yields the not-found outcome
instead of reconstructing ⟨p2, [c]⟩ — the link row ("p2", "c") was never
staged. -/
theorem c2_counterexample :
    create_many ⟨[], [], []⟩ [⟨"p1", [⟨"c"⟩]⟩, ⟨"p2", [⟨"c"⟩]⟩] =
      (⟨["p1", "p2"], ["c"], [("p1", "c")]⟩, Except.ok 2) ∧
    queryOne ⟨["p1", "p2"], ["c"], [("p1", "c")]⟩ "p2" = none := by
  exact ⟨rfl, rfl⟩

/-- Claim C5 counterexample: a parent listing the same child twice stages a
single link row (the second position is swallowed by the staged-children
check), and the write SUCCEEDS with one child row and one link row instead of
failing on the link-table uniqueness constraint. -/
theorem c5_counterexample :
    stageAll [⟨"p", [⟨"c"⟩, ⟨"c"⟩]⟩] = ⟨["p"], ["c"], [("p", "c")], ["c"]⟩ ∧
    create_many ⟨[], [], []⟩ [⟨"p", [⟨"c"⟩, ⟨"c"⟩]⟩] =
      (⟨["p"], ["c"], [("p", "c")]⟩, Except.ok 1) := by
  exact ⟨rfl, rfl⟩

/-- Claim C3: `create_many` is all-or-nothing.  A failed transaction leaves
the store exactly as it was; a successful one appends every staged parent,
child and link row (the transaction body applies them in that order), and the
returned count is the batch length. -/
theorem c3_write_is_atomic (s : Store) (objs : List Parent) :
    ((create_many s objs).2 = Except.error DbError.constraintViolation →
      (create_many s objs).1 = s) ∧
    (∀ n, (create_many s objs).2 = Except.ok n →
      (create_many s objs).1.parents = s.parents ++ (stageAll objs).parentRows ∧
      (create_many s objs).1.children = s.children ++ (stageAll objs).childRows ∧
      (create_many s objs).1.links = s.links ++ (stageAll objs).linkRows ∧
      n = objs.length) := by
  by_cases hobjs : objs.isEmpty = true
  · have hnil : objs = [] := by simpa using hobjs
    subst hnil
    constructor
    · intro h
      simp [create_many] at h
    · intro n hn
      simp [create_many] at hn
      simp [create_many, stageAll, stageParents, ← hn]
  · cases hrt : runTxn s (stageAll objs) with
    | none =>
      have hcm : create_many s objs = (s, Except.error DbError.constraintViolation) := by
        simp [create_many, hobjs, hrt]
      rw [hcm]
      constructor
      · intro _; rfl
      · intro n hn
        simp at hn
    | some sNew =>
      have hcm : create_many s objs = (sNew, Except.ok (stageAll objs).parentRows.length) := by
        simp [create_many, hobjs, hrt]
      rw [hcm]
      constructor
      · intro h
        simp at h
      · intro n hn
        simp only [Except.ok.injEq] at hn
        obtain ⟨h1, h2, h3⟩ := runTxn_some (stageAll_inv objs).2.1 hrt
        have hlen : n = objs.length := by
          rw [← hn, stageAll_parentRows, List.length_map]
        exact ⟨h1, h2, h3, hlen⟩

/-- Witness for C3: a batch whose parent id collides with an existing parent
row fails and leaves the store untouched; a fresh one-parent batch succeeds
and appends its staged link row. -/
theorem c3_write_is_atomic_witness :
    (create_many ⟨["p"], [], []⟩ [⟨"p", []⟩]).1 = ⟨["p"], [], []⟩ ∧
    (create_many ⟨[], [], []⟩ [⟨"q", [⟨"c"⟩]⟩]).1.links =
      [] ++ (stageAll [⟨"q", [⟨"c"⟩]⟩]).linkRows := by
  constructor
  · exact (c3_write_is_atomic ⟨["p"], [], []⟩ [⟨"p", []⟩]).1 rfl
  · exact ((c3_write_is_atomic ⟨[], [], []⟩ [⟨"q", [⟨"c"⟩]⟩]).2 1 rfl).2.2.1

theorem addRow_keys (acc : List (String × List String)) (r : String × String) :
    (addRow acc r).map Prod.fst = discoverKeys (acc.map Prod.fst) r.1 := by
  unfold addRow discoverKeys
  split
  · rw [List.map_map]
    refine List.map_congr_left ?_
    intro g _
    by_cases h : g.1 = r.1 <;> simp [h]
  · rw [List.map_append]
    rfl

theorem foldl_addRow_keys (rows : List (String × String)) :
    ∀ acc, (rows.foldl addRow acc).map Prod.fst =
      (rows.map Prod.fst).foldl discoverKeys (acc.map Prod.fst) := by
  induction rows with
  | nil => intro acc; rfl
  | cons r rows ih =>
    intro acc
    rw [List.foldl_cons, ih (addRow acc r), addRow_keys, List.map_cons, List.foldl_cons]

theorem groupRows_keys (rows : List (String × String)) :
    (groupRows rows).map Prod.fst = firstDiscovery rows := by
  rw [groupRows, foldl_addRow_keys]
  rfl

theorem discover_mono (ks : List String) :
    ∀ ks0, ∀ x ∈ ks0, x ∈ ks.foldl discoverKeys ks0 := by
  induction ks with
  | nil => intro ks0 x hx; exact hx
  | cons k ks ih =>
    intro ks0 x hx
    rw [List.foldl_cons]
    apply ih
    unfold discoverKeys
    split <;> simp [hx]

theorem discover_mem (ks : List String) :
    ∀ ks0 x, x ∈ ks.foldl discoverKeys ks0 → x ∈ ks0 ∨ x ∈ ks := by
  induction ks with
  | nil => intro ks0 x h; exact Or.inl h
  | cons k ks ih =>
    intro ks0 x h
    rw [List.foldl_cons] at h
    rcases ih _ x h with h1 | h1
    · unfold discoverKeys at h1
      split at h1
      · exact Or.inl h1
      · rcases List.mem_append.mp h1 with h2 | h2
        · exact Or.inl h2
        · simp at h2; subst h2; right; simp
    · right; simp [h1]

theorem discover_complete (ks : List String) :
    ∀ ks0 x, x ∈ ks → x ∈ ks.foldl discoverKeys ks0 := by
  induction ks with
  | nil => intro ks0 x h; cases h
  | cons k ks ih =>
    intro ks0 x hx
    rw [List.foldl_cons]
    rcases List.mem_cons.mp hx with rfl | hx
    · apply discover_mono
      unfold discoverKeys
      split
      · assumption
      · simp
    · exact ih _ x hx

theorem discover_nodup (ks : List String) :
    ∀ ks0, ks0.Nodup → (ks.foldl discoverKeys ks0).Nodup := by
  induction ks with
  | nil => intro ks0 h; exact h
  | cons k ks ih =>
    intro ks0 h
    rw [List.foldl_cons]
    apply ih
    unfold discoverKeys
    split
    · exact h
    · rename_i hk
      simp [List.nodup_append, h, hk]

theorem queryResults_ids (s : Store) (pred : String → Bool) :
    (queryResults s pred).map (fun p => p.id) = firstDiscovery (queryRows s pred) := by
  rw [queryResults, List.map_map, ← groupRows_keys]
  rfl

theorem addRow_snd_ne_nil {acc : List (String × List String)} {r : String × String}
    (h : ∀ g ∈ acc, g.2 ≠ []) : ∀ g ∈ addRow acc r, g.2 ≠ [] := by
  intro g hg
  unfold addRow at hg
  split at hg
  · obtain ⟨g0, hg0, rfl⟩ := List.mem_map.mp hg
    by_cases hk : g0.1 = r.1 <;> simp [hk, h g0 hg0]
  · rcases List.mem_append.mp hg with h1 | h1
    · exact h g h1
    · simp at h1; subst h1; simp

theorem foldl_addRow_snd_ne_nil (rows : List (String × String)) :
    ∀ acc, (∀ g ∈ acc, g.2 ≠ []) → ∀ g ∈ rows.foldl addRow acc, g.2 ≠ [] := by
  induction rows with
  | nil => intro acc h; exact h
  | cons r rows ih => intro acc h; exact ih _ (addRow_snd_ne_nil h)

theorem queryResults_children_ne_nil {s : Store} {pred : String → Bool} {p : Parent}
    (hp : p ∈ queryResults s pred) : p.children ≠ [] := by
  obtain ⟨g, hg, rfl⟩ := List.mem_map.mp hp
  have hne := foldl_addRow_snd_ne_nil _ _ (by simp) g hg
  simp only [toParent, ne_eq, List.map_eq_nil_iff]
  exact hne

theorem queryOne_of_rows_nil {s : Store} {id : String}
    (h : queryRows s (fun pid => decide (pid = id)) = []) : queryOne s id = none := by
  simp [queryOne, queryResults, h, groupRows]

theorem queryOne_some_mem {s : Store} {id : String} {p : Parent}
    (hp : queryOne s id = some p) : p ∈ queryResults s (fun pid => decide (pid = id)) := by
  rw [queryOne] at hp
  cases hL : queryResults s (fun pid => decide (pid = id)) with
  | nil => rw [hL] at hp; cases hp
  | cons q qs =>
    rw [hL] at hp
    simp only [List.head?_cons, Option.some.injEq] at hp
    subst hp
    simp

theorem queryResults_id_mem {s : Store} {pred : String → Bool} {p : Parent}
    (hp : p ∈ queryResults s pred) :
    ∃ l ∈ s.links, l.1 = p.id ∧ pred l.1 = true ∧ l.2 ∈ s.children := by
  obtain ⟨g, hg, rfl⟩ := List.mem_map.mp hp
  have hkey : g.1 ∈ (groupRows (queryRows s pred)).map Prod.fst :=
    List.mem_map_of_mem Prod.fst hg
  rw [groupRows_keys] at hkey
  rcases discover_mem _ _ _ hkey with h | h
  · cases h
  · obtain ⟨l, hl, hfst⟩ := List.mem_map.mp h
    have hl2 := List.mem_filter.mp hl
    have hpc : pred l.1 = true ∧ l.2 ∈ s.children := by
      have hb := hl2.2
      simp only [Bool.and_eq_true, decide_eq_true_eq] at hb
      exact hb
    exact ⟨l, hl2.1, hfst, hpc.1, hpc.2⟩

/-- Claim C4: a single-key fetch that matches no rows yields the distinct
not-found outcome (`none`, the indexing failure on the empty result list),
and a single-key fetch never returns an aggregate with an empty child list. -/
theorem c4_single_key_not_found (s : Store) (id : String) :
    (queryRows s (fun pid => decide (pid = id)) = [] → queryOne s id = none) ∧
    (∀ p, queryOne s id = some p → p.children ≠ []) := by
  constructor
  · exact queryOne_of_rows_nil
  · intro p hp
    exact queryResults_children_ne_nil (queryOne_some_mem hp)

/-- Witness for C4 at concrete inputs: the id "q" matches no row of a store
holding one link ("p", "c"), and the fetch of "q" yields `none`; the fetch of
"p" yields an aggregate, whose child list is non-empty. -/
theorem c4_single_key_not_found_witness :
    queryOne ⟨["p"], ["c"], [("p", "c")]⟩ "q" = none ∧
    (Parent.mk "p" [⟨"c"⟩]).children ≠ [] := by
  constructor
  · exact (c4_single_key_not_found ⟨["p"], ["c"], [("p", "c")]⟩ "q").1 rfl
  · exact (c4_single_key_not_found ⟨["p"], ["c"], [("p", "c")]⟩ "p").2 ⟨"p", [⟨"c"⟩]⟩ rfl

/-- Claim C9: reconstruction is driven solely by link rows, so an identity
with no link rows is invisible to `query`: the single-key fetch yields the
not-found outcome, a multi-key fetch omits it, and every aggregate any query
returns has a non-empty child list. -/
theorem c9_empty_parent_never_returned (s : Store) (ids : List String) (id : String) :
    (∀ l ∈ s.links, l.1 ≠ id) →
    queryOne s id = none ∧
    (∀ p ∈ queryMany s ids, p.id ≠ id) ∧
    (∀ p ∈ queryMany s ids, p.children ≠ []) := by
  intro hnolink
  refine ⟨?_, ?_, ?_⟩
  · apply queryOne_of_rows_nil
    rw [queryRows, List.filter_eq_nil_iff]
    intro l hl
    simp [hnolink l hl]
  · intro p hp
    obtain ⟨l, hl, hfst, _, _⟩ := queryResults_id_mem hp
    rw [← hfst]
    exact hnolink l hl
  · intro p hp
    exact queryResults_children_ne_nil hp

/-- Witness for C9: in a store whose parent table holds "p" and "q" but whose
link table only references "p", the identity "q" (a persisted parent with no
children) is not found by a single fetch, is omitted by the multi-key fetch
for ["p", "q"], and the one returned aggregate has children. -/
theorem c9_empty_parent_never_returned_witness :
    queryOne ⟨["p", "q"], ["c"], [("p", "c")]⟩ "q" = none ∧
    (∀ p ∈ queryMany ⟨["p", "q"], ["c"], [("p", "c")]⟩ ["p", "q"], p.id ≠ "q") := by
  have h := c9_empty_parent_never_returned ⟨["p", "q"], ["c"], [("p", "c")]⟩ ["p", "q"] "q"
    (by decide)
  exact ⟨h.1, h.2.1⟩

/-- Claim C6: a multi-key fetch returns exactly the aggregates of the keys
that have rows: returned ids are the row parent ids in first-discovery
order, every returned id was requested, an id with no link rows is omitted
(rather than raising an error — the function is total), and every requested
id that does match a row appears in the result. -/
theorem c6_multi_key_known_only (s : Store) (ids : List String) :
    (queryMany s ids).map (fun p => p.id) =
      firstDiscovery (queryRows s (fun pid => decide (pid ∈ ids))) ∧
    (∀ p ∈ queryMany s ids, p.id ∈ ids) ∧
    (∀ k, (∀ l ∈ s.links, l.1 ≠ k) → ∀ p ∈ queryMany s ids, p.id ≠ k) ∧
    (∀ k l, l ∈ queryRows s (fun pid => decide (pid ∈ ids)) → l.1 = k →
      k ∈ (queryMany s ids).map (fun p => p.id)) := by
  refine ⟨queryResults_ids s _, ?_, ?_, ?_⟩
  · intro p hp
    obtain ⟨l, _, hfst, hpred, _⟩ := queryResults_id_mem hp
    rw [← hfst]
    simpa using hpred
  · intro k hk p hp
    obtain ⟨l, hl, hfst, _, _⟩ := queryResults_id_mem hp
    rw [← hfst]
    exact hk l hl
  · intro k l hl hfst
    rw [queryMany, queryResults_ids]
    apply discover_complete
    rw [← hfst]
    exact List.mem_map_of_mem Prod.fst hl

/-- Witness for C6 at a concrete store: fetching ["p", "z"] where only "p"
has rows returns exactly the aggregate of "p", omitting the unknown "z". -/
theorem c6_multi_key_known_only_witness :
    (∀ p ∈ queryMany ⟨["p"], ["c"], [("p", "c")]⟩ ["p", "z"], p.id ≠ "z") ∧
    "p" ∈ (queryMany ⟨["p"], ["c"], [("p", "c")]⟩ ["p", "z"]).map (fun p => p.id) := by
  have h := c6_multi_key_known_only ⟨["p"], ["c"], [("p", "c")]⟩ ["p", "z"]
  refine ⟨h.2.2.1 "z" (by decide), ?_⟩
  exact h.2.2.2 "p" ("p", "c") (by decide) rfl

/-- Claim C10: grouping by parent identity collapses duplicates, so for any
key list — duplicates included — each matching parent aggregate is returned
exactly once: the returned id list has no duplicate. -/
theorem c10_each_parent_once (s : Store) (ids : List String) :
    ((queryMany s ids).map (fun p => p.id)).Nodup := by
  rw [queryMany, queryResults_ids]
  exact discover_nodup _ _ List.nodup_nil

/-- Claim C5 (amended): staged link rows never repeat a child identity — a
parent listing the same child twice stages a link row only for the first
position, so no in-batch duplicate can trip the link uniqueness constraint. -/
theorem c5_amended_first_position_only (objs : List Parent) :
    ((stageAll objs).linkRows.map Prod.snd).Nodup ∧ (stageAll objs).linkRows.Nodup := by
  obtain ⟨_, h2, h3⟩ := stageAll_inv objs
  have hsnd : ((stageAll objs).linkRows.map Prod.snd).Nodup := by rw [h2]; exact h3
  exact ⟨hsnd, hsnd.of_map⟩

theorem find?_append_of_none {α : Type} {l₁ l₂ : List α} {f : α → Bool}
    (h : ∀ x ∈ l₁, f x = false) : (l₁ ++ l₂).find? f = l₂.find? f := by
  induction l₁ with
  | nil => rfl
  | cons a l ih =>
    rw [List.cons_append, List.find?_cons, h a (by simp)]
    exact ih (fun x hx => h x (by simp [hx]))

theorem find?_first {α : Type} {pre rest : List α} {q : α} {f : α → Bool}
    (hpre : ∀ x ∈ pre, f x = false) (hq : f q = true) :
    (pre ++ q :: rest).find? f = some q := by
  rw [find?_append_of_none hpre, List.find?_cons, hq]

theorem containsChild_of_mem {p : Parent} {c : Child} (h : c ∈ p.children) :
    containsChild p c.id = true := by
  simp only [containsChild, List.any_eq_true, decide_eq_true_eq]
  exact ⟨c, h, rfl⟩

theorem containsChild_exists {p : Parent} {cid : String} (h : containsChild p cid = true) :
    ∃ c ∈ p.children, c.id = cid := by
  simpa only [containsChild, List.any_eq_true, decide_eq_true_eq] using h

theorem stageChildren_first (objs pre rest : List Parent) (q : Parent)
    (hobjs : objs = pre ++ q :: rest) :
    ∀ (cs : List Child) (st : Staged),
      (∀ c ∈ cs, c ∈ q.children) →
      (∀ pc ∈ st.linkRows, firstParentWith objs pc.2 = some pc.1) →
      (∀ cid, (∃ p ∈ pre, containsChild p cid = true) → cid ∈ st.insertedChildren) →
      ((∀ pc ∈ (stageChildren q.id st cs).linkRows, firstParentWith objs pc.2 = some pc.1) ∧
       (∀ cid, (∃ p ∈ pre, containsChild p cid = true) →
         cid ∈ (stageChildren q.id st cs).insertedChildren) ∧
       (∀ c ∈ cs, c.id ∈ (stageChildren q.id st cs).insertedChildren) ∧
       (∀ cid ∈ st.insertedChildren, cid ∈ (stageChildren q.id st cs).insertedChildren)) := by
  intro cs
  induction cs with
  | nil =>
    intro st _ hA hB
    exact ⟨hA, hB, by simp, fun _ h => h⟩
  | cons c cs ih =>
    intro st hcs hA hB
    rw [stageChildren]
    by_cases hmem : c.id ∈ st.insertedChildren
    · have hst1 : stageChild q.id st c = st := by rw [stageChild, if_pos hmem]
      rw [hst1]
      obtain ⟨a, b, d, e⟩ := ih st (fun x hx => hcs x (by simp [hx])) hA hB
      refine ⟨a, b, ?_, e⟩
      intro x hx
      rcases List.mem_cons.mp hx with rfl | hx
      · exact e _ hmem
      · exact d x hx
    · have hst1 : stageChild q.id st c =
          { st with
            childRows := st.childRows ++ [c.id]
            insertedChildren := st.insertedChildren ++ [c.id]
            linkRows := st.linkRows ++ [(q.id, c.id)] } := by
        rw [stageChild, if_neg hmem]
      have hfirst : firstParentWith objs c.id = some q.id := by
        have hpre : ∀ p ∈ pre, containsChild p c.id = false := by
          intro p hp
          cases hcc : containsChild p c.id
          · rfl
          · exact absurd (hB c.id ⟨p, hp, hcc⟩) hmem
        rw [firstParentWith, hobjs, find?_first hpre (containsChild_of_mem (hcs c (by simp)))]
        rfl
      rw [hst1]
      have hA1 : ∀ pc ∈ st.linkRows ++ [(q.id, c.id)], firstParentWith objs pc.2 = some pc.1 := by
        intro pc hpc
        rcases List.mem_append.mp hpc with h1 | h1
        · exact hA pc h1
        · simp only [List.mem_singleton] at h1
          subst h1
          exact hfirst
      have hB1 : ∀ cid, (∃ p ∈ pre, containsChild p cid = true) →
          cid ∈ st.insertedChildren ++ [c.id] := by
        intro cid hcid
        exact List.mem_append_left _ (hB cid hcid)
      obtain ⟨a, b, d, e⟩ := ih
        { st with
          childRows := st.childRows ++ [c.id]
          insertedChildren := st.insertedChildren ++ [c.id]
          linkRows := st.linkRows ++ [(q.id, c.id)] }
        (fun x hx => hcs x (by simp [hx])) hA1 hB1
      refine ⟨a, b, ?_, ?_⟩
      · intro x hx
        rcases List.mem_cons.mp hx with rfl | hx
        · exact e _ (List.mem_append_right _ (by simp))
        · exact d x hx
      · intro cid hcid
        exact e _ (List.mem_append_left _ hcid)

theorem stageParents_first (objs : List Parent) :
    ∀ (ps pre : List Parent) (st : Staged),
      objs = pre ++ ps →
      (∀ pc ∈ st.linkRows, firstParentWith objs pc.2 = some pc.1) →
      (∀ cid, (∃ p ∈ pre, containsChild p cid = true) → cid ∈ st.insertedChildren) →
      ∀ pc ∈ (stageParents st ps).linkRows, firstParentWith objs pc.2 = some pc.1 := by
  intro ps
  induction ps with
  | nil =>
    intro pre st _ hA _
    exact hA
  | cons p ps ih =>
    intro pre st hobjs hA hB
    rw [stageParents]
    obtain ⟨a, b, d, _⟩ := stageChildren_first objs pre ps p hobjs p.children
      { st with parentRows := st.parentRows ++ [p.id] } (fun c hc => hc) hA hB
    refine ih (pre ++ [p]) _ ?_ a ?_
    · rw [hobjs, List.append_cons]
    · rintro cid ⟨x, hx, hcc⟩
      rcases List.mem_append.mp hx with hx | hx
      · exact b cid ⟨x, hx, hcc⟩
      · simp only [List.mem_singleton] at hx
        subst hx
        obtain ⟨c, hc, rfl⟩ := containsChild_exists hcc
        exact d c hc

/-- Claim C8: in every `create_many` call the staged link rows and staged
child rows correspond one to one (their child-id columns coincide, each child
id staged once), and every staged link pairs a child with the FIRST parent of
the batch whose child list contains it — later references stage nothing. -/
theorem c8_one_link_per_staged_child (objs : List Parent) :
    (stageAll objs).linkRows.length = (stageAll objs).childRows.length ∧
    (stageAll objs).linkRows.map Prod.snd = (stageAll objs).childRows ∧
    (stageAll objs).childRows.Nodup ∧
    (∀ pc ∈ (stageAll objs).linkRows, firstParentWith objs pc.2 = some pc.1) := by
  obtain ⟨_, h2, h3⟩ := stageAll_inv objs
  refine ⟨?_, h2, h3, ?_⟩
  · rw [← h2, List.length_map]
  · exact stageParents_first objs objs [] ⟨[], [], [], []⟩ rfl (by simp)
      (by rintro cid ⟨p, hp, _⟩; simp at hp)

/-- Witness for C8: in the batch [⟨p1, [c]⟩, ⟨p2, [c]⟩] the single staged
link pairs "c" with "p1", the first parent listing it. -/
theorem c8_one_link_per_staged_child_witness :
    firstParentWith [⟨"p1", [⟨"c"⟩]⟩, ⟨"p2", [⟨"c"⟩]⟩] "c" = some "p1" := by
  exact (c8_one_link_per_staged_child [⟨"p1", [⟨"c"⟩]⟩, ⟨"p2", [⟨"c"⟩]⟩]).2.2.2
    ("p1", "c") (by decide)

theorem stageChildren_fresh (pid : String) :
    ∀ (cs : List Child) (st : Staged),
      (cs.map (fun c => c.id)).Nodup →
      (∀ c ∈ cs, c.id ∉ st.insertedChildren) →
      stageChildren pid st cs =
        { parentRows := st.parentRows
          childRows := st.childRows ++ cs.map (fun c => c.id)
          linkRows := st.linkRows ++ cs.map (fun c => (pid, c.id))
          insertedChildren := st.insertedChildren ++ cs.map (fun c => c.id) } := by
  intro cs
  induction cs with
  | nil => intro st _ _; simp [stageChildren]
  | cons c cs ih =>
    intro st hnd hfresh
    simp only [List.map_cons, List.nodup_cons] at hnd
    obtain ⟨hnotin, hnd⟩ := hnd
    have hmem : c.id ∉ st.insertedChildren := hfresh c (by simp)
    rw [stageChildren, stageChild, if_neg hmem]
    rw [ih _ hnd ?_]
    · simp [List.append_assoc]
    · intro x hx
      simp only [List.mem_append, List.mem_singleton]
      rintro (h | h)
      · exact hfresh x (by simp [hx]) h
      · exact hnotin (h ▸ List.mem_map_of_mem (fun c => c.id) hx)

theorem stageParents_fresh :
    ∀ (ps : List Parent) (st : Staged),
      (batchChildIds ps).Nodup →
      (∀ cid ∈ batchChildIds ps, cid ∉ st.insertedChildren) →
      stageParents st ps =
        { parentRows := st.parentRows ++ ps.map (fun p => p.id)
          childRows := st.childRows ++ batchChildIds ps
          linkRows := st.linkRows ++ batchPairs ps
          insertedChildren := st.insertedChildren ++ batchChildIds ps } := by
  intro ps
  induction ps with
  | nil => intro st _ _; simp [stageParents, batchChildIds, batchPairs]
  | cons p ps ih =>
    intro st hnd hfresh
    have hbc : batchChildIds (p :: ps) = p.children.map (fun c => c.id) ++ batchChildIds ps := by
      simp [batchChildIds]
    have hbp : batchPairs (p :: ps) = p.children.map (fun c => (p.id, c.id)) ++ batchPairs ps := by
      simp [batchPairs]
    rw [hbc] at hnd hfresh
    rw [List.nodup_append] at hnd
    obtain ⟨hnd1, hnd2, hdisj⟩ := hnd
    rw [stageParents, stageChildren_fresh p.id p.children _ hnd1 ?_]
    · rw [ih _ hnd2 ?_]
      · rw [hbc, hbp]
        simp [List.append_assoc]
      · intro cid hcid
        simp only [List.mem_append]
        rintro (h | h)
        · exact hfresh cid (List.mem_append_right _ hcid) h
        · exact hdisj h hcid
    · intro c hc
      exact hfresh c.id (List.mem_append_left _ (List.mem_map_of_mem (fun c => c.id) hc))

theorem stageAll_fresh (objs : List Parent) (hnd : (batchChildIds objs).Nodup) :
    stageAll objs =
      ⟨objs.map (fun p => p.id), batchChildIds objs, batchPairs objs, batchChildIds objs⟩ := by
  rw [stageAll, stageParents_fresh objs _ hnd (by simp)]
  simp

theorem batchPairs_fst {objs : List Parent} {l : String × String} (h : l ∈ batchPairs objs) :
    l.1 ∈ objs.map (fun p => p.id) := by
  simp only [batchPairs, List.mem_flatMap, List.mem_map] at h
  obtain ⟨p, hp, c, _, rfl⟩ := h
  exact List.mem_map_of_mem (fun p => p.id) hp

theorem batchPairs_snd {objs : List Parent} {l : String × String} (h : l ∈ batchPairs objs) :
    l.2 ∈ batchChildIds objs := by
  simp only [batchPairs, List.mem_flatMap, List.mem_map] at h
  obtain ⟨p, hp, c, hc, rfl⟩ := h
  simp only [batchChildIds, List.mem_flatMap, List.mem_map]
  exact ⟨p, hp, c, hc, rfl⟩

theorem batchPairs_map_snd (objs : List Parent) :
    (batchPairs objs).map Prod.snd = batchChildIds objs := by
  induction objs with
  | nil => rfl
  | cons p ps ih =>
    simp only [batchPairs, batchChildIds, List.flatMap_cons, List.map_append, List.map_map]
    simp only [batchPairs, batchChildIds] at ih
    rw [ih]
    rfl

theorem batchPairs_nodup {objs : List Parent} (h : (batchChildIds objs).Nodup) :
    (batchPairs objs).Nodup := by
  have : ((batchPairs objs).map Prod.snd).Nodup := by rw [batchPairs_map_snd]; exact h
  exact this.of_map

theorem batchPairs_filter_self {p : Parent} :
    ∀ {objs : List Parent}, p ∈ objs → (objs.map (fun q => q.id)).Nodup →
      (batchPairs objs).filter (fun l => decide (l.1 = p.id)) =
        p.children.map (fun c => (p.id, c.id)) := by
  intro objs
  induction objs with
  | nil => intro h; cases h
  | cons q qs ih =>
    intro hmem hnd
    rw [batchPairs, List.flatMap_cons, List.filter_append]
    simp only [List.map_cons, List.nodup_cons] at hnd
    obtain ⟨hqid, hnd'⟩ := hnd
    rcases List.mem_cons.mp hmem with rfl | hmem'
    · have h1 : (p.children.map (fun c => (p.id, c.id))).filter (fun l => decide (l.1 = p.id)) =
          p.children.map (fun c => (p.id, c.id)) := by
        rw [List.filter_eq_self]
        intro l hl
        obtain ⟨c, _, rfl⟩ := List.mem_map.mp hl
        simp
      have h2 : ((qs.flatMap fun r => r.children.map fun c => (r.id, c.id)).filter
          (fun l => decide (l.1 = p.id))) = [] := by
        rw [List.filter_eq_nil_iff]
        intro l hl
        have hfst : l.1 ∈ qs.map (fun r => r.id) := batchPairs_fst hl
        simp only [decide_eq_true_eq]
        intro he
        rw [he] at hfst
        exact hqid hfst
      rw [h1, h2, List.append_nil]
    · have hq : ¬ q.id = p.id := by
        intro he
        apply hqid
        rw [he]
        exact List.mem_map_of_mem (fun r => r.id) hmem'
      have h1 : (q.children.map (fun c => (q.id, c.id))).filter (fun l => decide (l.1 = p.id)) =
          [] := by
        rw [List.filter_eq_nil_iff]
        intro l hl
        obtain ⟨c, _, rfl⟩ := List.mem_map.mp hl
        simp [hq]
      rw [h1, List.nil_append]
      exact ih hmem' hnd'

theorem foldl_addRow_const (pid : String) :
    ∀ (rows : List (String × String)) (cs : List String),
      (∀ r ∈ rows, r.1 = pid) →
      rows.foldl addRow [(pid, cs)] = [(pid, cs ++ rows.map Prod.snd)] := by
  intro rows
  induction rows with
  | nil => intro cs _; simp
  | cons r rows ih =>
    intro cs hall
    rw [List.foldl_cons]
    have hr : r.1 = pid := hall r (by simp)
    have haddr : addRow [(pid, cs)] r = [(pid, cs ++ [r.2])] := by
      simp [addRow, hr]
    rw [haddr, ih (cs ++ [r.2]) (fun x hx => hall x (by simp [hx]))]
    simp

theorem groupRows_const {rows : List (String × String)} {pid : String}
    (hne : rows ≠ []) (hall : ∀ r ∈ rows, r.1 = pid) :
    groupRows rows = [(pid, rows.map Prod.snd)] := by
  cases rows with
  | nil => cases hne rfl
  | cons r rows =>
    rw [groupRows, List.foldl_cons]
    have hr : r.1 = pid := hall r (by simp)
    have h0 : addRow [] r = [(pid, [r.2])] := by simp [addRow, hr]
    rw [h0, foldl_addRow_const pid rows [r.2] (fun x hx => hall x (by simp [hx]))]
    simp

theorem children_roundtrip (pid : String) (cs : List Child) :
    ((cs.map (fun c => (pid, c.id))).map Prod.snd).map Child.mk = cs := by
  induction cs with
  | nil => rfl
  | cons c cs ih => simp only [List.map_cons, ih]

/-- Claim C2 (amended): the write/fetch round trip holds once the batch is
also internally collision-free: parent ids pairwise distinct, child
references pairwise distinct across the WHOLE batch (no child shared between
two parents and no child repeated in one list — the staging bug drops the
link row of any repeated reference), and every child list non-empty (a
childless parent is invisible to `query`).  Then `create_many` succeeds with
count = batch length, appending exactly the staged rows, and fetching any
batch parent id reconstructs the original aggregate. -/
theorem c2_amended_roundtrip (s : Store) (objs : List Parent)
    (hwf : wfStore s)
    (hne : objs ≠ [])
    (hpnd : (objs.map (fun p => p.id)).Nodup)
    (hpfresh : ∀ p ∈ objs, p.id ∉ s.parents)
    (hcnd : (batchChildIds objs).Nodup)
    (hcfresh : ∀ cid ∈ batchChildIds objs, cid ∉ s.children)
    (hch : ∀ p ∈ objs, p.children ≠ []) :
    create_many s objs =
      (⟨s.parents ++ objs.map (fun p => p.id),
        s.children ++ batchChildIds objs,
        s.links ++ batchPairs objs⟩, Except.ok objs.length) ∧
    ∀ p ∈ objs,
      queryOne ⟨s.parents ++ objs.map (fun p => p.id),
        s.children ++ batchChildIds objs,
        s.links ++ batchPairs objs⟩ p.id = some p := by
  have hstage := stageAll_fresh objs hcnd
  have hp : insertIds s.parents (objs.map (fun p => p.id)) =
      some (s.parents ++ objs.map (fun p => p.id)) := by
    apply insertIds_ok _ _ hpnd
    intro r hr
    obtain ⟨p, hpm, rfl⟩ := List.mem_map.mp hr
    exact hpfresh p hpm
  have hc : insertIds s.children (batchChildIds objs) =
      some (s.children ++ batchChildIds objs) := insertIds_ok _ _ hcnd hcfresh
  have hl : insertLinks (s.parents ++ objs.map (fun p => p.id))
      (s.children ++ batchChildIds objs) s.links (batchPairs objs) =
      some (s.links ++ batchPairs objs) := by
    apply insertLinks_ok _ _ _ _ (batchPairs_nodup hcnd)
    intro l hlmem
    refine ⟨?_, ?_, ?_⟩
    · intro hcon
      exact hcfresh l.2 (batchPairs_snd hlmem) (hwf l hcon).2
    · exact List.mem_append_right _ (batchPairs_fst hlmem)
    · exact List.mem_append_right _ (batchPairs_snd hlmem)
  have hflat : batchChildIds objs ≠ [] := by
    cases objs with
    | nil => exact absurd rfl hne
    | cons p ps =>
      intro hcon
      rw [batchChildIds, List.flatMap_cons] at hcon
      have h1 := (List.append_eq_nil.mp hcon).1
      exact hch p (by simp) (List.map_eq_nil_iff.mp h1)
  have hie : ¬ (batchChildIds objs).isEmpty = true := by simpa using hflat
  have hrun : runTxn s (stageAll objs) =
      some ⟨s.parents ++ objs.map (fun p => p.id),
            s.children ++ batchChildIds objs,
            s.links ++ batchPairs objs⟩ := by
    rw [hstage]
    simp [runTxn, hp, hc, hl, hie]
  have hobjs_ne : ¬ objs.isEmpty = true := by simpa using hne
  have hlen : (stageAll objs).parentRows.length = objs.length := by
    rw [stageAll_parentRows, List.length_map]
  constructor
  · simp [create_many, hobjs_ne, hrun, hlen]
  · intro p hpmem
    have hpid_fresh : p.id ∉ s.parents := hpfresh p hpmem
    have hfil1 : s.links.filter
        (fun l => decide (l.1 = p.id) &&
          decide (l.2 ∈ s.children ++ batchChildIds objs)) = [] := by
      rw [List.filter_eq_nil_iff]
      intro l hlmem
      have h1 : l.1 ∈ s.parents := (hwf l hlmem).1
      have h2 : ¬ l.1 = p.id := fun he => hpid_fresh (he ▸ h1)
      simp [h2]
    have hfil2 : (batchPairs objs).filter
        (fun l => decide (l.1 = p.id) &&
          decide (l.2 ∈ s.children ++ batchChildIds objs)) =
        p.children.map (fun c => (p.id, c.id)) := by
      rw [List.filter_congr ?_, batchPairs_filter_self hpmem hpnd]
      intro l hlmem
      have h2 : l.2 ∈ s.children ++ batchChildIds objs :=
        List.mem_append_right _ (batchPairs_snd hlmem)
      simp [h2]
    have hrows : queryRows
        ⟨s.parents ++ objs.map (fun p => p.id),
         s.children ++ batchChildIds objs,
         s.links ++ batchPairs objs⟩ (fun pid => decide (pid = p.id)) =
        p.children.map (fun c => (p.id, c.id)) := by
      rw [queryRows, List.filter_append, hfil1, hfil2, List.nil_append]
    have hallp : ∀ r ∈ p.children.map (fun c => (p.id, c.id)), r.1 = p.id := by
      intro r hr
      obtain ⟨c, _, rfl⟩ := List.mem_map.mp hr
      rfl
    have hnerows : p.children.map (fun c => (p.id, c.id)) ≠ [] := by
      intro hcon
      exact hch p hpmem (List.map_eq_nil_iff.mp hcon)
    rw [queryOne, queryResults, hrows, groupRows_const hnerows hallp]
    show some (toParent (p.id, (p.children.map (fun c => (p.id, c.id))).map Prod.snd)) = some p
    simp only [toParent]
    rw [children_roundtrip]

/-- Witness for C2 (amended) at the concrete batch [⟨p1, [c1, c2]⟩,
⟨p2, [c3]⟩] on the empty store: the write succeeds with count 2 and both
aggregates round-trip. -/
theorem c2_amended_roundtrip_witness :
    create_many ⟨[], [], []⟩ [⟨"p1", [⟨"c1"⟩, ⟨"c2"⟩]⟩, ⟨"p2", [⟨"c3"⟩]⟩] =
      (⟨["p1", "p2"], ["c1", "c2", "c3"],
        [("p1", "c1"), ("p1", "c2"), ("p2", "c3")]⟩, Except.ok 2) ∧
    ∀ p ∈ [Parent.mk "p1" [⟨"c1"⟩, ⟨"c2"⟩], Parent.mk "p2" [⟨"c3"⟩]],
      queryOne ⟨["p1", "p2"], ["c1", "c2", "c3"],
        [("p1", "c1"), ("p1", "c2"), ("p2", "c3")]⟩ p.id = some p := by
  exact c2_amended_roundtrip ⟨[], [], []⟩
    [⟨"p1", [⟨"c1"⟩, ⟨"c2"⟩]⟩, ⟨"p2", [⟨"c3"⟩]⟩]
    (by intro l hl; simp at hl) (by decide) (by decide) (by decide) (by decide)
    (by decide) (by decide)

end SqlSockets
